import Mathlib

/-!
Verification of the core compiler passes of a small Scheme-to-C compiler.

The development shallowly embeds the IR and the passes of the repository:

* `src/nodes.rs`      — the surface IR `LExpr`, the environment `Env`, the
  environment-annotated IR `LExEnv`;
* `src/transform.rs`  — the fresh-name context, `rename_builtins`,
  `expand_lam_app`, `expand_lam_body`, `cps_transform_cont` / `cps_transform`;
* `src/codegen.rs`    — `EnvCtx`, `resolve_env_internal` / `resolve_env`,
  `extract_lambdas`, `codegen` with its lookup helpers;
* `src/flat_expr.rs`  — the second-revision lambda lifter `lift_lambdas`
  (namespace `FlatLift`).

The Rust fresh-name context (a struct holding a `u64` counter) is embedded as
an explicit `Nat` threaded through the passes.  Rust `HashMap`s are embedded
as association lists with unique keys: `insert` replaces the entry with the
same key, `get` finds the unique entry, `extend` folds `insert`.  Code paths
that panic in Rust (`unreachable`, stage violations) return `none`.
-/

/-- Literal values.  Modelled from the spec: the repository's `ExprLit` type
is referenced by `transform.rs` (`ExprLit::Void`) but its definition is not
among the staged files; the spec describes literals as "integer, void, or
other primitive". -/
inductive ExprLit where
  | Void : ExprLit
  | Int (n : Int) : ExprLit
deriving DecidableEq, Repr

/-- Builtin arity tags.  Modelled from the spec: `transform.rs` uses
`LamType::TwoArg`; the definition is not among the staged files. -/
inductive LamType where
  | OneArg : LamType
  | TwoArg : LamType
deriving DecidableEq, Repr

/-- The surface IR, `nodes.rs` `LExpr` plus the `Lit` and `BuiltinIdent`
variants that `transform.rs` matches on. -/
inductive LExpr where
  | Lam (args : List String) (body : List LExpr)
  | App (func : LExpr) (operands : List LExpr)
  | Var (name : String)
  | LamOne (arg : String) (body : List LExpr)
  | AppOne (func : LExpr) (operand : LExpr)
  | LamOneOne (arg : String) (body : LExpr)
  | AppOneCont (func : LExpr) (operand : LExpr) (cont : LExpr)
  | LamOneOneCont (arg : String) (cont : String) (body : LExpr)
  | Lit (l : ExprLit)
  | BuiltinIdent (name : String) (ty : LamType)

/-- `HashMap::insert` on an association list with `String` keys: the new
entry replaces any entry with the same key. -/
def envInsert (k : String) (v : Nat) (m : List (String × Nat)) : List (String × Nat) :=
  (k, v) :: m.filter (fun p => p.1 != k)

/-- `nodes.rs` `Env`: a mapping from names to slot ids. -/
structure Env where
  entries : List (String × Nat)
deriving DecidableEq, Repr

/-- `Env::new`: copy the parent's entries, then extend (and shadow) with
`vals`. -/
def Env.new (parent : Env) (vals : List (String × Nat)) : Env :=
  ⟨vals.foldl (fun m kv => envInsert kv.1 kv.2 m) parent.entries⟩

/-- `Env::empty`. -/
def Env.empty : Env := ⟨[]⟩

/-- `Env::get`. -/
def Env.get (e : Env) (key : String) : Option Nat :=
  (e.entries.find? (fun p => p.1 == key)).map Prod.snd

/-- `nodes.rs` `LExEnv`: expressions that carry an explicit environment. -/
inductive LExEnv where
  | Lam (arg : String) (expr : LExEnv) (env : Env) (id : Nat)
  | LamCont (arg : String) (cont : String) (expr : LExEnv) (env : Env) (id : Nat)
  | App1 (cont : LExEnv) (rand : LExEnv) (env : Env)
  | App2 (rator : LExEnv) (rand : LExEnv) (cont : LExEnv) (env : Env)
  | Var (name : String) (global : Bool) (env : Env)
  | LamRef (id : Nat)
deriving DecidableEq, Repr

/-- `codegen.rs` `EnvCtx`. -/
structure EnvCtx where
  var_index : Nat
  lam_map : List Env
deriving DecidableEq, Repr

/-- `EnvCtx::get_var_index`: return the current index and bump it. -/
def EnvCtx.get_var_index (ctx : EnvCtx) : Nat × EnvCtx :=
  (ctx.var_index, { ctx with var_index := ctx.var_index + 1 })

/-- `EnvCtx::add_lam_map`: push `env` and return its index in the table. -/
def EnvCtx.add_lam_map (ctx : EnvCtx) (env : Env) : Nat × EnvCtx :=
  (ctx.lam_map.length, { ctx with lam_map := ctx.lam_map ++ [env] })

/-- The fragment of the C expression AST (`cdsl` `CExpr`) that `codegen`
produces. -/
inductive CExpr where
  | LitStr (s : String)
  | LitInt (n : Nat)
  | FunCallOp (expr : CExpr) (ands : List CExpr)
  | MacroCall (name : String) (args : List CExpr)

/-- `TransformContext::gen_ident`: `$anon_var_<name>_<n>`, counter bumped. -/
def gen_ident (name : String) (c : Nat) : String × Nat :=
  (s!"$anon_var_{name}_{c}", c + 1)

/-- `TransformContext::gen_throwaway`: `$throwaway_var_<n>`, counter bumped. -/
def gen_throwaway (c : Nat) : String × Nat :=
  (s!"$throwaway_var_{c}", c + 1)

/-- `transform.rs` `void_obj`. -/
def void_obj : LExpr := .Lit .Void

mutual

/-- `transform.rs` `rename_builtins`: rewrite variables named in the fixed
builtin table to `BuiltinIdent`; recurse through `Lam` and `App`; literals
and existing builtins pass through; post-normalization variants are a stage
violation (`none`). -/
def rename_builtins : LExpr → Option LExpr
  | .Lam args body =>
    (rename_builtins_list body).map (fun b => .Lam args b)
  | .App func operands =>
    match rename_builtins func with
    | none => none
    | some f =>
      (rename_builtins_list operands).map (fun ops => .App f ops)
  | .Var v =>
    some (if v = "to_string" then .BuiltinIdent "to_string_func" .TwoArg
      else if v = "println" then .BuiltinIdent "println_func" .TwoArg
      else if v = "+" then .BuiltinIdent "object_int_obj_add" .TwoArg
      else if v = "-" then .BuiltinIdent "object_int_obj_sub" .TwoArg
      else if v = "*" then .BuiltinIdent "object_int_obj_mul" .TwoArg
      else if v = "/" then .BuiltinIdent "object_int_obj_div" .TwoArg
      else .Var v)
  | .Lit l => some (.Lit l)
  | .BuiltinIdent n t => some (.BuiltinIdent n t)
  | _ => none

/-- `body.into_iter().map(|e| rename_builtins(e, ctx)).collect()`. -/
def rename_builtins_list : List LExpr → Option (List LExpr)
  | [] => some []
  | e :: rest =>
    match rename_builtins e with
    | none => none
    | some e2 => (rename_builtins_list rest).map (fun r => e2 :: r)

end

mutual

/-- `transform.rs` `expand_lam_app`: curry n-ary lambdas and applications
into unary form.  A 0-ary lambda binds a fresh throwaway name; a 0-operand
application applies to the void literal. -/
def expand_lam_app : LExpr → Nat → Option (LExpr × Nat)
  | .Lam args body, c =>
    match expand_lam_app_list body c with
    | none => none
    | some (body2, c1) =>
      match args with
      | [] =>
        let tv := gen_throwaway c1
        some (.LamOne tv.1 body2, tv.2)
      | a :: rest =>
        -- args.into_iter().rev(): first = LamOne(last, body), then fold
        match (a :: rest).reverse with
        | [] => none   -- unwrap of an empty iterator
        | last :: revRest =>
          some (revRest.foldl (fun acc arg => .LamOne arg [acc]) (.LamOne last body2), c1)
  | .App func operands, c =>
    match expand_lam_app func c with
    | none => none
    | some (f2, c1) =>
      match expand_lam_app_list operands c1 with
      | none => none
      | some (ops2, c2) =>
        match ops2 with
        | [] => some (.AppOne f2 void_obj, c2)
        | o :: rest =>
          some (rest.foldl (fun acc arg => .AppOne acc arg) (.AppOne f2 o), c2)
  | .Var v, c => some (.Var v, c)
  | .Lit l, c => some (.Lit l, c)
  | .BuiltinIdent n t, c => some (.BuiltinIdent n t, c)
  | _, _ => none

/-- Mapping `expand_lam_app` over a list of subterms, threading the
counter. -/
def expand_lam_app_list : List LExpr → Nat → Option (List LExpr × Nat)
  | [], c => some ([], c)
  | e :: rest, c =>
    match expand_lam_app e c with
    | none => none
    | some (e2, c1) =>
      match expand_lam_app_list rest c1 with
      | none => none
      | some (r2, c2) => some (e2 :: r2, c2)

end

theorem LExpr.sizeOf_list_append (l1 l2 : List LExpr) :
    sizeOf (l1 ++ l2) + 1 = sizeOf l1 + sizeOf l2 := by
  induction l1 with
  | nil => simp; omega
  | cons a t ih => simp at ih ⊢; omega

theorem LExpr.sizeOf_list_reverse (l : List LExpr) :
    sizeOf l.reverse = sizeOf l := by
  induction l with
  | nil => rfl
  | cons a t ih =>
    have h := LExpr.sizeOf_list_append t.reverse [a]
    simp at h ⊢
    omega

mutual

/-- `transform.rs` `expand_lam_body`: collapse a multi-expression `LamOne`
body into a single expression.  The body is reversed and mapped first; a
non-empty result is folded into a chain of single-use `LamOneOne` wrappers;
the whole is wrapped in `LamOneOne(arg, ...)`. -/
def expand_lam_body : LExpr → Nat → LExpr × Nat
  | .LamOne arg body, c =>
    match expand_lam_body_list body.reverse c with
    | (body2, c1) =>
      match body2 with
      | [] => (.LamOneOne arg (.LamOneOne arg void_obj), c1)
      | first :: rest =>
        let folded := rest.foldl
          (fun acc arg2 =>
            let g := gen_ident "lam_expand" acc.2
            (.AppOne (.LamOneOne g.1 acc.1) arg2, g.2))
          (first, c1)
        (.LamOneOne arg folded.1, folded.2)
  | .AppOne func operand, c =>
    let r1 := expand_lam_body func c
    let r2 := expand_lam_body operand r1.2
    (.AppOne r1.1 r2.1, r2.2)
  | x, c => (x, c)
termination_by e _ => sizeOf e
decreasing_by
  all_goals simp [LExpr.sizeOf_list_reverse]
  all_goals omega

/-- `body.into_iter().rev().map(|b| expand_lam_body(b, ctx)).collect()`,
applied to the already reversed list. -/
def expand_lam_body_list : List LExpr → Nat → List LExpr × Nat
  | [], c => ([], c)
  | e :: rest, c =>
    let r1 := expand_lam_body e c
    let r2 := expand_lam_body_list rest r1.2
    (r1.1 :: r2.1, r2.2)
termination_by l _ => sizeOf l
decreasing_by
  all_goals simp
  all_goals omega

end

mutual

/-- `transform.rs` `cps_transform_cont`: evaluate `expr` and pass its value
to `cont`.  Atoms and lambda forms apply `cont` to the transformed value;
`AppOne` evaluates operator, then operand, then performs the call through
`AppOneCont`; `AppOneCont` and raw n-ary forms are stage violations. -/
def cps_transform_cont : LExpr → LExpr → Nat → Option (LExpr × Nat)
  | .Var v, cont, c =>
    match cps_transform (.Var v) c with
    | none => none
    | some (e2, c1) => some (.AppOne cont e2, c1)
  | .LamOneOne a b, cont, c =>
    match cps_transform (.LamOneOne a b) c with
    | none => none
    | some (e2, c1) => some (.AppOne cont e2, c1)
  | .LamOneOneCont a k b, cont, c =>
    match cps_transform (.LamOneOneCont a k b) c with
    | none => none
    | some (e2, c1) => some (.AppOne cont e2, c1)
  | .BuiltinIdent n t, cont, c =>
    match cps_transform (.BuiltinIdent n t) c with
    | none => none
    | some (e2, c1) => some (.AppOne cont e2, c1)
  | .Lit l, cont, c =>
    match cps_transform (.Lit l) c with
    | none => none
    | some (e2, c1) => some (.AppOne cont e2, c1)
  | .AppOne rator rand, cont, c =>
    let rv := gen_ident "rator_var" c
    let dv := gen_ident "rand_var" rv.2
    match cps_transform_cont rand
        (.LamOneOne dv.1 (.AppOneCont (.Var rv.1) (.Var dv.1) cont)) dv.2 with
    | none => none
    | some (inner, c3) =>
      cps_transform_cont rator (.LamOneOne rv.1 inner) c3
  | .AppOneCont _ _ _, _, _ => none
  | .Lam _ _, _, _ => none
  | .App _ _, _, _ => none
  | .LamOne _ _, _, _ => none
termination_by e _ _ => 2 * sizeOf e + 1
decreasing_by
  all_goals simp
  all_goals omega

/-- `transform.rs` `cps_transform`: a `LamOneOne` becomes a `LamOneOneCont`
with a fresh continuation parameter; an already-CPS lambda is a stage
violation; everything else passes through unchanged. -/
def cps_transform : LExpr → Nat → Option (LExpr × Nat)
  | .LamOneOne arg body, c =>
    let cv := gen_ident "cont_var" c
    match cps_transform_cont body (.Var cv.1) cv.2 with
    | none => none
    | some (b2, c2) => some (.LamOneOneCont arg cv.1 b2, c2)
  | .LamOneOneCont _ _ _, _ => none
  | .Lam a b, c => some (.Lam a b, c)
  | .App a b, c => some (.App a b, c)
  | .Var v, c => some (.Var v, c)
  | .LamOne a b, c => some (.LamOne a b, c)
  | .AppOne a b, c => some (.AppOne a b, c)
  | .AppOneCont a b k, c => some (.AppOneCont a b k, c)
  | .Lit l, c => some (.Lit l, c)
  | .BuiltinIdent n t, c => some (.BuiltinIdent n t, c)
termination_by e _ => 2 * sizeOf e
decreasing_by
  all_goals simp
  all_goals omega

end

/-- `codegen.rs` `resolve_env_internal`: resolve variables into explicit
environments, allocating slot ids for binders and a dense id per lambda.
Note the source computes `global` as `env.get(&name).is_some()`. -/
def resolve_env_internal : LExpr → Env → EnvCtx → Option (LExEnv × EnvCtx)
  | .Var name, env, ctx =>
    some (.Var name (env.get name).isSome env, ctx)
  | .AppOne operator operand, env, ctx =>
    match resolve_env_internal operator env ctx with
    | none => none
    | some (cont, ctx1) =>
      match resolve_env_internal operand env ctx1 with
      | none => none
      | some (rand, ctx2) => some (.App1 cont rand env, ctx2)
  | .AppOneCont operator operand cont, env, ctx =>
    match resolve_env_internal operator env ctx with
    | none => none
    | some (rator, ctx1) =>
      match resolve_env_internal operand env ctx1 with
      | none => none
      | some (rand, ctx2) =>
        match resolve_env_internal cont env ctx2 with
        | none => none
        | some (cont2, ctx3) => some (.App2 rator rand cont2 env, ctx3)
  | .LamOneOne arg expr, env, ctx =>
    let vi := ctx.get_var_index
    let new_env := Env.new env [(arg, vi.1)]
    let al := vi.2.add_lam_map new_env
    match resolve_env_internal expr new_env al.2 with
    | none => none
    | some (body, ctx3) => some (.Lam arg body new_env al.1, ctx3)
  | .LamOneOneCont arg cont expr, env, ctx =>
    let vi := ctx.get_var_index
    let ci := vi.2.get_var_index
    let new_env := Env.new env [(arg, vi.1), (cont, ci.1)]
    let al := ci.2.add_lam_map new_env
    match resolve_env_internal expr new_env al.2 with
    | none => none
    | some (body, ctx3) => some (.LamCont arg cont body new_env al.1, ctx3)
  | _, _, _ => none

/-- `codegen.rs` `resolve_env`: run the resolver from the empty environment
and a fresh `EnvCtx`. -/
def resolve_env (node : LExpr) : Option (LExEnv × EnvCtx) :=
  resolve_env_internal node Env.empty ⟨0, []⟩

/-- `HashMap::insert` on an association list with `Nat` keys. -/
def hinsert {α : Type} (k : Nat) (v : α) (m : List (Nat × α)) : List (Nat × α) :=
  (k, v) :: m.filter (fun p => p.1 != k)

/-- `HashMap::extend`: insert every entry of `m2` into `m1`. -/
def hextend {α : Type} (m1 m2 : List (Nat × α)) : List (Nat × α) :=
  m2.foldl (fun acc kv => hinsert kv.1 kv.2 acc) m1

/-- `codegen.rs` `extract_lambdas`: extract every lambda into an id-keyed
map, replacing it in place by `LamRef`. -/
def extract_lambdas : LExEnv → LExEnv × List (Nat × LExEnv)
  | .Lam arg expr env id =>
    let r := extract_lambdas expr
    (.LamRef id, hinsert id (.Lam arg r.1 env id) r.2)
  | .LamCont arg cont expr env id =>
    let r := extract_lambdas expr
    (.LamRef id, hinsert id (.LamCont arg cont r.1 env id) r.2)
  | .App1 cont rand env =>
    let rc := extract_lambdas cont
    let rr := extract_lambdas rand
    (.App1 rc.1 rr.1 env, hextend rc.2 rr.2)
  | .App2 rator rand cont env =>
    let rf := extract_lambdas rator
    let rr := extract_lambdas rand
    let rc := extract_lambdas cont
    (.App2 rf.1 rr.1 rc.1 env, hextend (hextend rf.2 rr.2) rc.2)
  | x => (x, [])

/-- `codegen.rs` `gen_global_lookup` (an unimplemented placeholder). -/
def gen_global_lookup (_name : String) : CExpr := .LitStr "NULL"

/-- `codegen.rs` `gen_local_lookup` (an unimplemented placeholder). -/
def gen_local_lookup (_name : String) : CExpr := .LitStr "NULL"

/-- `codegen.rs` `codegen`: generate a C expression for a lifted `LExEnv`
expression; inline lambdas are a stage violation. -/
def codegen : LExEnv → Option CExpr
  | .LamRef id => some (.LitStr (s!"lambda_{id}"))
  | .Var name true _ => some (gen_global_lookup name)
  | .Var name false _ => some (gen_local_lookup name)
  | .App1 cont rand _ =>
    match codegen cont, codegen rand with
    | some c, some r => some (.FunCallOp c [r])
    | _, _ => none
  | .App2 rator rand cont _ =>
    match codegen rator, codegen rand, codegen cont with
    | some f, some r, some c => some (.FunCallOp f [r, c])
    | _, _, _ => none
  | _ => none

namespace FlatLift

/-- Literals of the second-revision pipeline.  Modelled from the spec:
`crate::literals::Literal` is not among the staged files. -/
inductive Literal where
  | Int (n : Int) : Literal
  | Void : Literal
deriving DecidableEq, Repr

/-- `flat_expr.rs` `FExpr`.  The `moniker` `Scope`/`Binder` wrappers are
embedded as a plain parameter name plus body: `Scope::unbind` is projection
(its freshening of bound names does not affect which lambda ids the lifter
assigns, the only aspect the claims quantify over). -/
inductive FExpr where
  | LamOne (param : String) (body : FExpr)
  | LamTwo (param0 : String) (param1 : String) (body : FExpr)
  | Var (v : String)
  | Lit (l : Literal)
  | BuiltinIdent (s : String)
  | CallOne (f : FExpr) (c : FExpr)
  | CallTwo (f : FExpr) (v : FExpr) (c : FExpr)

/-- `crate::lifted_expr::LExpr`, modelled from its usage in
`lift_lambdas_internal`: the lifted expression type, with lambdas replaced
by `Lifted(id)` references. -/
inductive LiftedExpr where
  | Lifted (id : Nat)
  | Var (v : String)
  | Lit (l : Literal)
  | BuiltinIdent (s : String)
  | CallOne (f : LiftedExpr) (c : LiftedExpr)
  | CallTwo (f : LiftedExpr) (v : LiftedExpr) (c : LiftedExpr)

/-- `body.free_vars()`, modelled from its usage: lifted bodies contain no
binders, so every variable occurrence is free. -/
def LiftedExpr.free_vars : LiftedExpr → List String
  | .Lifted _ => []
  | .Var v => [v]
  | .Lit _ => []
  | .BuiltinIdent _ => []
  | .CallOne f c => f.free_vars ++ c.free_vars
  | .CallTwo f v c => f.free_vars ++ v.free_vars ++ c.free_vars

/-- `crate::lifted_expr::LiftedLambda`, modelled from its usage
(`LiftedLambda::new(id, params, free_vars, body)` and the `l.id` field). -/
structure LiftedLambda where
  id : Nat
  params : List String
  free_vars : List String
  body : LiftedExpr

/-- `flat_expr.rs` `LiftingCtx`. -/
structure LiftingCtx where
  id_counter : Nat
  lambdas : List (Nat × LiftedLambda)

/-- `LiftingCtx::get`: return the counter and bump it. -/
def LiftingCtx.get (ctx : LiftingCtx) : Nat × LiftingCtx :=
  (ctx.id_counter, { ctx with id_counter := ctx.id_counter + 1 })

/-- `LiftingCtx::add`: insert keyed by the lambda's id. -/
def LiftingCtx.add (ctx : LiftingCtx) (l : LiftedLambda) : LiftingCtx :=
  { ctx with lambdas := hinsert l.id l ctx.lambdas }

/-- `flat_expr.rs` `lift_lambdas_internal`: lift the body first, then take a
fresh id and record the lifted lambda. -/
def lift_lambdas_internal : FExpr → LiftingCtx → LiftedExpr × LiftingCtx
  | .LamOne param body, ctx =>
    let r := lift_lambdas_internal body ctx
    let g := r.2.get
    let ctx2 := g.2.add ⟨g.1, [param], r.1.free_vars, r.1⟩
    (.Lifted g.1, ctx2)
  | .LamTwo param0 param1 body, ctx =>
    let r := lift_lambdas_internal body ctx
    let g := r.2.get
    let ctx2 := g.2.add ⟨g.1, [param0, param1], r.1.free_vars, r.1⟩
    (.Lifted g.1, ctx2)
  | .Var v, ctx => (.Var v, ctx)
  | .Lit l, ctx => (.Lit l, ctx)
  | .BuiltinIdent i, ctx => (.BuiltinIdent i, ctx)
  | .CallOne f p, ctx =>
    let rf := lift_lambdas_internal f ctx
    let rp := lift_lambdas_internal p rf.2
    (.CallOne rf.1 rp.1, rp.2)
  | .CallTwo f p k, ctx =>
    let rf := lift_lambdas_internal f ctx
    let rp := lift_lambdas_internal p rf.2
    let rk := lift_lambdas_internal k rp.2
    (.CallTwo rf.1 rp.1 rk.1, rk.2)

/-- `FExpr::lift_lambdas`: run the lifter from a fresh context. -/
def FExpr.lift_lambdas (e : FExpr) : LiftedExpr × List (Nat × LiftedLambda) :=
  let r := lift_lambdas_internal e ⟨0, []⟩
  (r.1, r.2.lambdas)

/-- Number of lambdas in an `FExpr`. -/
def numLamsF : FExpr → Nat
  | .LamOne _ body => numLamsF body + 1
  | .LamTwo _ _ body => numLamsF body + 1
  | .Var _ => 0
  | .Lit _ => 0
  | .BuiltinIdent _ => 0
  | .CallOne f c => numLamsF f + numLamsF c
  | .CallTwo f v c => numLamsF f + numLamsF v + numLamsF c

end FlatLift

mutual

/-- Number of nodes of an `LExpr` satisfying `p` (the node itself plus all
descendants, including those inside `Lam`/`App`/`LamOne` body lists). -/
def countNodes (p : LExpr → Bool) : LExpr → Nat
  | .Lam args body =>
    (if p (.Lam args body) then 1 else 0) + countNodesList p body
  | .App f ops =>
    (if p (.App f ops) then 1 else 0) + countNodes p f + countNodesList p ops
  | .Var v => if p (.Var v) then 1 else 0
  | .LamOne a body =>
    (if p (.LamOne a body) then 1 else 0) + countNodesList p body
  | .AppOne f a =>
    (if p (.AppOne f a) then 1 else 0) + countNodes p f + countNodes p a
  | .LamOneOne a b =>
    (if p (.LamOneOne a b) then 1 else 0) + countNodes p b
  | .AppOneCont f a k =>
    (if p (.AppOneCont f a k) then 1 else 0) + countNodes p f + countNodes p a + countNodes p k
  | .LamOneOneCont a k b =>
    (if p (.LamOneOneCont a k b) then 1 else 0) + countNodes p b
  | .Lit l => if p (.Lit l) then 1 else 0
  | .BuiltinIdent n t => if p (.BuiltinIdent n t) then 1 else 0

/-- `countNodes` summed over a list. -/
def countNodesList (p : LExpr → Bool) : List LExpr → Nat
  | [] => 0
  | e :: r => countNodes p e + countNodesList p r

end

/-- Is the node a raw n-ary `Lam`? -/
def isLamNode : LExpr → Bool
  | .Lam _ _ => true
  | _ => false

/-- Is the node a raw n-ary `App`? -/
def isAppNode : LExpr → Bool
  | .App _ _ => true
  | _ => false

/-- Is the node a `LamOne`? -/
def isLamOneNode : LExpr → Bool
  | .LamOne _ _ => true
  | _ => false

/-- Is the node an `AppOne`? -/
def isAppOneNode : LExpr → Bool
  | .AppOne _ _ => true
  | _ => false

/-- Is the node a `LamOneOne`? -/
def isLamOneOneNode : LExpr → Bool
  | .LamOneOne _ _ => true
  | _ => false

/-- Is the node an `AppOneCont`? -/
def isAppOneContNode : LExpr → Bool
  | .AppOneCont _ _ _ => true
  | _ => false

/-- Is the node a `LamOneOneCont`? -/
def isLamOneOneContNode : LExpr → Bool
  | .LamOneOneCont _ _ _ => true
  | _ => false

/-- Is the node one of the raw n-ary pre-normalization forms? -/
def isRawNode (e : LExpr) : Bool :=
  isLamNode e || isAppNode e || isLamOneNode e

/-- Is the node a post-normalization variant (anything the builtin resolver
treats as a stage violation)? -/
def isPostNormNode (e : LExpr) : Bool :=
  isLamOneNode e || isAppOneNode e || isLamOneOneNode e
    || isAppOneContNode e || isLamOneOneContNode e

/-- The expression is built only from `Lam`, `App`, `Var`, `Lit`,
`BuiltinIdent` (a pre-normalization input tree). -/
def IsPreNorm (e : LExpr) : Prop := countNodes isPostNormNode e = 0

/-- Every member of the list is pre-normalization. -/
def IsPreNormList (l : List LExpr) : Prop := countNodesList isPostNormNode l = 0

/-- The expression contains no raw n-ary `Lam`, `App` or `LamOne` node. -/
def NoRawNodes (e : LExpr) : Prop := countNodes isRawNode e = 0

/-- The expression is built only from `LamOneOne`, `AppOne`, `Var`, `Lit`,
`BuiltinIdent` (direct-style unary, the CPS converter's input fragment): no
raw n-ary node, no `AppOneCont`, no `LamOneOneCont`. -/
def IsDirect (e : LExpr) : Prop :=
  countNodes isRawNode e = 0 ∧ countNodes isAppOneContNode e = 0
    ∧ countNodes isLamOneOneContNode e = 0

/-- Is the node a unary lambda form (`LamOneOne` or `LamOneOneCont`)?  These
are the nodes to which `resolve_env_internal` assigns lambda ids. -/
def isCpsLamNode (e : LExpr) : Bool :=
  isLamOneOneNode e || isLamOneOneContNode e

/-- Number of lambdas of a post-CPS `LExpr`. -/
def numLams (e : LExpr) : Nat := countNodes isCpsLamNode e

/-- Number of nodes of an `LExEnv` satisfying `p`. -/
def countEnvNodes (p : LExEnv → Bool) : LExEnv → Nat
  | .Lam a e env id =>
    (if p (.Lam a e env id) then 1 else 0) + countEnvNodes p e
  | .LamCont a k e env id =>
    (if p (.LamCont a k e env id) then 1 else 0) + countEnvNodes p e
  | .App1 c r env =>
    (if p (.App1 c r env) then 1 else 0) + countEnvNodes p c + countEnvNodes p r
  | .App2 f r c env =>
    (if p (.App2 f r c env) then 1 else 0)
      + countEnvNodes p f + countEnvNodes p r + countEnvNodes p c
  | .Var n g env => if p (.Var n g env) then 1 else 0
  | .LamRef id => if p (.LamRef id) then 1 else 0

/-- Is the node an in-line lambda (`Lam` or `LamCont`)? -/
def isLamEnvNode : LExEnv → Bool
  | .Lam _ _ _ _ => true
  | .LamCont _ _ _ _ _ => true
  | _ => false

/-- Number of in-line lambdas of an `LExEnv`. -/
def numLamsEnv (e : LExEnv) : Nat := countEnvNodes isLamEnvNode e

/-- The ids of the in-line lambdas of an `LExEnv`, in preorder (the order in
which `resolve_env_internal` assigns them). -/
def idsOfEnv : LExEnv → List Nat
  | .Lam _ e _ id => id :: idsOfEnv e
  | .LamCont _ _ e _ id => id :: idsOfEnv e
  | .App1 c r _ => idsOfEnv c ++ idsOfEnv r
  | .App2 f r c _ => idsOfEnv f ++ idsOfEnv r ++ idsOfEnv c
  | .Var _ _ _ => []
  | .LamRef _ => []

/-- The keys of an association list. -/
def mapKeys {α : Type} (m : List (Nat × α)) : List Nat := m.map Prod.fst

/-- The stored value is a lambda whose body contains no in-line lambda. -/
def storedLamFlat : LExEnv → Bool
  | .Lam _ e _ _ => countEnvNodes isLamEnvNode e == 0
  | .LamCont _ _ e _ _ => countEnvNodes isLamEnvNode e == 0
  | _ => false

/-- Specification-side description of lambda lifting's effect on the main
expression (§4.7): each in-line lambda is replaced by a `LamRef` carrying
that lambda's id; `App1`, `App2`, `Var` and `LamRef` nodes keep every field
(including the `env` annotation) unchanged. -/
def replace_lams : LExEnv → LExEnv
  | .Lam _ _ _ id => .LamRef id
  | .LamCont _ _ _ _ id => .LamRef id
  | .App1 c r env => .App1 (replace_lams c) (replace_lams r) env
  | .App2 f r c env => .App2 (replace_lams f) (replace_lams r) (replace_lams c) env
  | .Var n g env => .Var n g env
  | .LamRef id => .LamRef id

/-- Specification-side description of the lifted-lambda table (§4.7): each
lambda is stored under its id, keeping its `arg`/`cont`/`env`/`id` fields
and its body with inner lambdas replaced by `LamRef`s; sibling tables are
merged with `extend`. -/
def collect_lams : LExEnv → List (Nat × LExEnv)
  | .Lam arg expr env id =>
    hinsert id (.Lam arg (replace_lams expr) env id) (collect_lams expr)
  | .LamCont arg cont expr env id =>
    hinsert id (.LamCont arg cont (replace_lams expr) env id) (collect_lams expr)
  | .App1 c r _ => hextend (collect_lams c) (collect_lams r)
  | .App2 f r c _ => hextend (hextend (collect_lams f) (collect_lams r)) (collect_lams c)
  | .Var _ _ _ => []
  | .LamRef _ => []

mutual

/-- Specification-side builtin resolution (§4.2): rewrite exactly the six
table entries, leave every other `Var` unchanged, recurse structurally. -/
def rename_builtins_spec : LExpr → LExpr
  | .Lam args body => .Lam args (rename_builtins_spec_list body)
  | .App f ops => .App (rename_builtins_spec f) (rename_builtins_spec_list ops)
  | .Var v =>
    if v = "+" then .BuiltinIdent "object_int_obj_add" .TwoArg
    else if v = "-" then .BuiltinIdent "object_int_obj_sub" .TwoArg
    else if v = "*" then .BuiltinIdent "object_int_obj_mul" .TwoArg
    else if v = "/" then .BuiltinIdent "object_int_obj_div" .TwoArg
    else if v = "to_string" then .BuiltinIdent "to_string_func" .TwoArg
    else if v = "println" then .BuiltinIdent "println_func" .TwoArg
    else .Var v
  | .Lit l => .Lit l
  | .BuiltinIdent n t => .BuiltinIdent n t
  | x => x

/-- `rename_builtins_spec` mapped over a list. -/
def rename_builtins_spec_list : List LExpr → List LExpr
  | [] => []
  | e :: r => rename_builtins_spec e :: rename_builtins_spec_list r

end

theorem NoRawNodes_Var (v : String) : NoRawNodes (.Var v) := by
  simp [NoRawNodes, countNodes, isRawNode, isLamNode, isAppNode, isLamOneNode]

theorem NoRawNodes_AppOne (f a : LExpr) :
    NoRawNodes (.AppOne f a) ↔ NoRawNodes f ∧ NoRawNodes a := by
  simp [NoRawNodes, countNodes, isRawNode, isLamNode, isAppNode, isLamOneNode]
  try omega

theorem NoRawNodes_LamOneOne (a : String) (b : LExpr) :
    NoRawNodes (.LamOneOne a b) ↔ NoRawNodes b := by
  simp [NoRawNodes, countNodes, isRawNode, isLamNode, isAppNode, isLamOneNode]

theorem NoRawNodes_LamOneOneCont (a k : String) (b : LExpr) :
    NoRawNodes (.LamOneOneCont a k b) ↔ NoRawNodes b := by
  simp [NoRawNodes, countNodes, isRawNode, isLamNode, isAppNode, isLamOneNode]

theorem NoRawNodes_AppOneCont (f a k : LExpr) :
    NoRawNodes (.AppOneCont f a k) ↔ NoRawNodes f ∧ NoRawNodes a ∧ NoRawNodes k := by
  simp [NoRawNodes, countNodes, isRawNode, isLamNode, isAppNode, isLamOneNode]
  try omega

theorem IsDirect_AppOne (f a : LExpr) :
    IsDirect (.AppOne f a) ↔ IsDirect f ∧ IsDirect a := by
  simp [IsDirect, countNodes, isRawNode, isLamNode, isAppNode, isLamOneNode,
    isAppOneContNode, isLamOneOneContNode]
  try omega

theorem IsDirect_LamOneOne (a : String) (b : LExpr) :
    IsDirect (.LamOneOne a b) ↔ IsDirect b := by
  simp [IsDirect, countNodes, isRawNode, isLamNode, isAppNode, isLamOneNode,
    isAppOneContNode, isLamOneOneContNode]

theorem cps_aux (N : Nat) : ∀ e : LExpr, sizeOf e ≤ N →
    ((∀ (k : LExpr) (n : Nat), IsDirect e → NoRawNodes k →
      ∃ e2 n2, cps_transform_cont e k n = some (e2, n2)
        ∧ NoRawNodes e2
        ∧ countNodes isAppOneContNode e2
            = countNodes isAppOneNode e + countNodes isAppOneContNode k
        ∧ countNodes isLamOneOneContNode e2
            = countNodes isLamOneOneNode e + countNodes isLamOneOneContNode k) ∧
     (∀ n : Nat, IsDirect e → isAppOneNode e = false →
      ∃ e2 n2, cps_transform e n = some (e2, n2)
        ∧ NoRawNodes e2
        ∧ countNodes isAppOneContNode e2 = countNodes isAppOneNode e
        ∧ countNodes isLamOneOneContNode e2 = countNodes isLamOneOneNode e)) := by
  induction N with
  | zero =>
    intro e he
    cases e <;> simp at he
  | succ N ih =>
    intro e he
    cases e with
    | Var v =>
      constructor
      · intro k n _ hk
        refine ⟨.AppOne k (.Var v), n, by simp [cps_transform_cont, cps_transform], ?_, ?_, ?_⟩
        · rw [NoRawNodes_AppOne]
          exact ⟨hk, NoRawNodes_Var v⟩
        · simp [countNodes, isAppOneContNode, isAppOneNode]
        · simp [countNodes, isLamOneOneContNode, isLamOneOneNode]
      · intro n _ _
        refine ⟨.Var v, n, by simp [cps_transform], NoRawNodes_Var v, by simp [countNodes, isAppOneContNode, isAppOneNode], by simp [countNodes, isLamOneOneContNode, isLamOneOneNode]⟩
    | Lit l =>
      constructor
      · intro k n _ hk
        refine ⟨.AppOne k (.Lit l), n, by simp [cps_transform_cont, cps_transform], ?_, ?_, ?_⟩
        · rw [NoRawNodes_AppOne]
          refine ⟨hk, by simp [NoRawNodes, countNodes, isRawNode, isLamNode, isAppNode, isLamOneNode]⟩
        · simp [countNodes, isAppOneContNode, isAppOneNode]
        · simp [countNodes, isLamOneOneContNode, isLamOneOneNode]
      · intro n _ _
        refine ⟨.Lit l, n, by simp [cps_transform], by simp [NoRawNodes, countNodes, isRawNode, isLamNode, isAppNode, isLamOneNode], by simp [countNodes, isAppOneContNode, isAppOneNode], by simp [countNodes, isLamOneOneContNode, isLamOneOneNode]⟩
    | BuiltinIdent nm t =>
      constructor
      · intro k n _ hk
        refine ⟨.AppOne k (.BuiltinIdent nm t), n, by simp [cps_transform_cont, cps_transform], ?_, ?_, ?_⟩
        · rw [NoRawNodes_AppOne]
          refine ⟨hk, by simp [NoRawNodes, countNodes, isRawNode, isLamNode, isAppNode, isLamOneNode]⟩
        · simp [countNodes, isAppOneContNode, isAppOneNode]
        · simp [countNodes, isLamOneOneContNode, isLamOneOneNode]
      · intro n _ _
        refine ⟨.BuiltinIdent nm t, n, by simp [cps_transform], by simp [NoRawNodes, countNodes, isRawNode, isLamNode, isAppNode, isLamOneNode], by simp [countNodes, isAppOneContNode, isAppOneNode], by simp [countNodes, isLamOneOneContNode, isLamOneOneNode]⟩
    | LamOneOne a b =>
      have hb : sizeOf b ≤ N := by simp at he; omega
      have htrans : ∀ n : Nat, IsDirect (.LamOneOne a b) → isAppOneNode (.LamOneOne a b) = false →
          ∃ e2 n2, cps_transform (.LamOneOne a b) n = some (e2, n2)
            ∧ NoRawNodes e2
            ∧ countNodes isAppOneContNode e2 = countNodes isAppOneNode (.LamOneOne a b)
            ∧ countNodes isLamOneOneContNode e2 = countNodes isLamOneOneNode (.LamOneOne a b) := by
        intro n hd _
        obtain ⟨e2, n2, he2, hnr, h1, h2⟩ :=
          (ih b hb).1 (.Var (gen_ident "cont_var" n).1) ((gen_ident "cont_var" n).2)
            ((IsDirect_LamOneOne a b).mp hd) (NoRawNodes_Var _)
        refine ⟨.LamOneOneCont a (gen_ident "cont_var" n).1 e2, n2, ?_, ?_, ?_, ?_⟩
        · simp [cps_transform, he2]
        · rw [NoRawNodes_LamOneOneCont]
          exact hnr
        · simp [countNodes, isAppOneContNode, isAppOneNode] at h1 ⊢
          omega
        · simp [countNodes, isLamOneOneContNode, isLamOneOneNode] at h2 ⊢
          omega
      refine ⟨?_, htrans⟩
      intro k n hd hk
      obtain ⟨e2, n2, he2, hnr, h1, h2⟩ := htrans n hd (by simp [isAppOneNode])
      refine ⟨.AppOne k e2, n2, ?_, ?_, ?_, ?_⟩
      · simp [cps_transform_cont, he2]
      · rw [NoRawNodes_AppOne]
        exact ⟨hk, hnr⟩
      · simp [countNodes, isAppOneContNode, isAppOneNode] at h1 ⊢
        omega
      · simp [countNodes, isLamOneOneContNode, isLamOneOneNode] at h2 ⊢
        omega
    | AppOne f a =>
      have hf : sizeOf f ≤ N := by simp at he; omega
      have ha : sizeOf a ≤ N := by simp at he; omega
      constructor
      · intro k n hd hk
        obtain ⟨hdf, hda⟩ := (IsDirect_AppOne f a).mp hd
        have hkinner : NoRawNodes (.LamOneOne (gen_ident "rand_var" (gen_ident "rator_var" n).2).1
            (.AppOneCont (.Var (gen_ident "rator_var" n).1)
              (.Var (gen_ident "rand_var" (gen_ident "rator_var" n).2).1) k)) := by
          rw [NoRawNodes_LamOneOne, NoRawNodes_AppOneCont]
          exact ⟨NoRawNodes_Var _, NoRawNodes_Var _, hk⟩
        obtain ⟨e2, n2, he2, hnr2, hA2, hL2⟩ :=
          (ih a ha).1
            (.LamOneOne (gen_ident "rand_var" (gen_ident "rator_var" n).2).1
              (.AppOneCont (.Var (gen_ident "rator_var" n).1)
                (.Var (gen_ident "rand_var" (gen_ident "rator_var" n).2).1) k))
            ((gen_ident "rand_var" (gen_ident "rator_var" n).2).2) hda hkinner
        obtain ⟨e3, n3, he3, hnr3, hA3, hL3⟩ :=
          (ih f hf).1 (.LamOneOne (gen_ident "rator_var" n).1 e2) n2 hdf
            ((NoRawNodes_LamOneOne _ _).mpr hnr2)
        refine ⟨e3, n3, ?_, hnr3, ?_, ?_⟩
        · rw [cps_transform_cont]
          simp only [he2]
          exact he3
        · simp [countNodes, isAppOneContNode, isAppOneNode] at hA2 hA3 ⊢
          omega
        · simp [countNodes, isLamOneOneContNode, isLamOneOneNode] at hL2 hL3 ⊢
          omega
      · intro n _ hfalse
        simp [isAppOneNode] at hfalse
    | LamOneOneCont a kk b =>
      constructor
      · intro k n hd _
        exfalso
        simp [IsDirect, countNodes, isLamOneOneContNode] at hd
      · intro n hd _
        exfalso
        simp [IsDirect, countNodes, isLamOneOneContNode] at hd
    | AppOneCont ff aa kk =>
      constructor
      · intro k n hd _
        exfalso
        simp [IsDirect, countNodes, isAppOneContNode] at hd
      · intro n hd _
        exfalso
        simp [IsDirect, countNodes, isAppOneContNode] at hd
    | Lam args body =>
      constructor
      · intro k n hd _
        exfalso
        simp [IsDirect, countNodes, isRawNode, isLamNode] at hd
      · intro n hd _
        exfalso
        simp [IsDirect, countNodes, isRawNode, isLamNode] at hd
    | App ff ops =>
      constructor
      · intro k n hd _
        exfalso
        simp [IsDirect, countNodes, isRawNode, isLamNode, isAppNode] at hd
      · intro n hd _
        exfalso
        simp [IsDirect, countNodes, isRawNode, isLamNode, isAppNode] at hd
    | LamOne a body =>
      constructor
      · intro k n hd _
        exfalso
        simp [IsDirect, countNodes, isRawNode, isLamNode, isAppNode, isLamOneNode] at hd
      · intro n hd _
        exfalso
        simp [IsDirect, countNodes, isRawNode, isLamNode, isAppNode, isLamOneNode] at hd

theorem rename_spec_aux (N : Nat) :
    (∀ e : LExpr, sizeOf e ≤ N → IsPreNorm e →
      rename_builtins e = some (rename_builtins_spec e))
    ∧ (∀ l : List LExpr, sizeOf l ≤ N → IsPreNormList l →
      rename_builtins_list l = some (rename_builtins_spec_list l)) := by
  induction N with
  | zero =>
    constructor
    · intro e he
      cases e <;> simp at he
    · intro l hl
      cases l <;> simp at hl
  | succ N ih =>
    constructor
    · intro e he hp
      cases e with
      | Lam args body =>
        have hs : sizeOf body ≤ N := by simp at he; omega
        have hp2 : IsPreNormList body := by
          simp [IsPreNorm, IsPreNormList, countNodes, isPostNormNode, isLamOneNode,
            isAppOneNode, isLamOneOneNode, isAppOneContNode, isLamOneOneContNode] at hp ⊢
          omega
        simp [rename_builtins, rename_builtins_spec, ih.2 body hs hp2]
      | App f ops =>
        have hsf : sizeOf f ≤ N := by simp at he; omega
        have hso : sizeOf ops ≤ N := by simp at he; omega
        have hpf : IsPreNorm f := by
          simp [IsPreNorm, IsPreNormList, countNodes, isPostNormNode, isLamOneNode,
            isAppOneNode, isLamOneOneNode, isAppOneContNode, isLamOneOneContNode] at hp ⊢
          omega
        have hpo : IsPreNormList ops := by
          simp [IsPreNorm, IsPreNormList, countNodes, isPostNormNode, isLamOneNode,
            isAppOneNode, isLamOneOneNode, isAppOneContNode, isLamOneOneContNode] at hp ⊢
          omega
        simp [rename_builtins, rename_builtins_spec, ih.1 f hsf hpf, ih.2 ops hso hpo]
      | Var v =>
        by_cases h1 : v = "to_string"
        · subst h1; rfl
        by_cases h2 : v = "println"
        · subst h2; rfl
        by_cases h3 : v = "+"
        · subst h3; rfl
        by_cases h4 : v = "-"
        · subst h4; rfl
        by_cases h5 : v = "*"
        · subst h5; rfl
        by_cases h6 : v = "/"
        · subst h6; rfl
        simp [rename_builtins, rename_builtins_spec, h1, h2, h3, h4, h5, h6]
      | Lit l => rfl
      | BuiltinIdent nm t => rfl
      | LamOne a b =>
        exfalso
        simp [IsPreNorm, countNodes, isPostNormNode, isLamOneNode] at hp
      | AppOne a b =>
        exfalso
        simp [IsPreNorm, countNodes, isPostNormNode, isLamOneNode, isAppOneNode] at hp
      | LamOneOne a b =>
        exfalso
        simp [IsPreNorm, countNodes, isPostNormNode, isLamOneNode, isAppOneNode,
          isLamOneOneNode] at hp
      | AppOneCont a b k =>
        exfalso
        simp [IsPreNorm, countNodes, isPostNormNode, isLamOneNode, isAppOneNode,
          isLamOneOneNode, isAppOneContNode] at hp
      | LamOneOneCont a k b =>
        exfalso
        simp [IsPreNorm, countNodes, isPostNormNode, isLamOneNode, isAppOneNode,
          isLamOneOneNode, isAppOneContNode, isLamOneOneContNode] at hp
    · intro l hl hp
      cases l with
      | nil => rfl
      | cons e r =>
        have hse : sizeOf e ≤ N := by simp at hl; omega
        have hsr : sizeOf r ≤ N := by simp at hl; omega
        have hpe : IsPreNorm e := by
          simp [IsPreNorm, IsPreNormList, countNodesList] at hp ⊢
          omega
        have hpr : IsPreNormList r := by
          simp [IsPreNorm, IsPreNormList, countNodesList] at hp ⊢
          omega
        simp [rename_builtins_list, rename_builtins_spec_list,
          ih.1 e hse hpe, ih.2 r hsr hpr]

theorem rename_idem_aux (N : Nat) :
    (∀ e : LExpr, sizeOf e ≤ N → IsPreNorm e →
      ∃ e2, rename_builtins e = some e2 ∧ rename_builtins e2 = some e2)
    ∧ (∀ l : List LExpr, sizeOf l ≤ N → IsPreNormList l →
      ∃ l2, rename_builtins_list l = some l2 ∧ rename_builtins_list l2 = some l2) := by
  induction N with
  | zero =>
    constructor
    · intro e he
      cases e <;> simp at he
    · intro l hl
      cases l <;> simp at hl
  | succ N ih =>
    constructor
    · intro e he hp
      cases e with
      | Lam args body =>
        have hs : sizeOf body ≤ N := by simp at he; omega
        have hp2 : IsPreNormList body := by
          simp [IsPreNorm, IsPreNormList, countNodes, isPostNormNode, isLamOneNode,
            isAppOneNode, isLamOneOneNode, isAppOneContNode, isLamOneOneContNode] at hp ⊢
          omega
        obtain ⟨l2, ha, hb⟩ := ih.2 body hs hp2
        exact ⟨.Lam args l2, by simp [rename_builtins, ha], by simp [rename_builtins, hb]⟩
      | App f ops =>
        have hsf : sizeOf f ≤ N := by simp at he; omega
        have hso : sizeOf ops ≤ N := by simp at he; omega
        have hpf : IsPreNorm f := by
          simp [IsPreNorm, IsPreNormList, countNodes, isPostNormNode, isLamOneNode,
            isAppOneNode, isLamOneOneNode, isAppOneContNode, isLamOneOneContNode] at hp ⊢
          omega
        have hpo : IsPreNormList ops := by
          simp [IsPreNorm, IsPreNormList, countNodes, isPostNormNode, isLamOneNode,
            isAppOneNode, isLamOneOneNode, isAppOneContNode, isLamOneOneContNode] at hp ⊢
          omega
        obtain ⟨f2, haf, hbf⟩ := ih.1 f hsf hpf
        obtain ⟨o2, hao, hbo⟩ := ih.2 ops hso hpo
        exact ⟨.App f2 o2, by simp [rename_builtins, haf, hao],
          by simp [rename_builtins, hbf, hbo]⟩
      | Var v =>
        by_cases h1 : v = "to_string"
        · subst h1; exact ⟨.BuiltinIdent "to_string_func" .TwoArg, rfl, rfl⟩
        by_cases h2 : v = "println"
        · subst h2; exact ⟨.BuiltinIdent "println_func" .TwoArg, rfl, rfl⟩
        by_cases h3 : v = "+"
        · subst h3; exact ⟨.BuiltinIdent "object_int_obj_add" .TwoArg, rfl, rfl⟩
        by_cases h4 : v = "-"
        · subst h4; exact ⟨.BuiltinIdent "object_int_obj_sub" .TwoArg, rfl, rfl⟩
        by_cases h5 : v = "*"
        · subst h5; exact ⟨.BuiltinIdent "object_int_obj_mul" .TwoArg, rfl, rfl⟩
        by_cases h6 : v = "/"
        · subst h6; exact ⟨.BuiltinIdent "object_int_obj_div" .TwoArg, rfl, rfl⟩
        refine ⟨.Var v, ?_, ?_⟩ <;>
          simp [rename_builtins, h1, h2, h3, h4, h5, h6]
      | Lit l => exact ⟨.Lit l, rfl, rfl⟩
      | BuiltinIdent nm t => exact ⟨.BuiltinIdent nm t, rfl, rfl⟩
      | LamOne a b =>
        exfalso
        simp [IsPreNorm, countNodes, isPostNormNode, isLamOneNode] at hp
      | AppOne a b =>
        exfalso
        simp [IsPreNorm, countNodes, isPostNormNode, isLamOneNode, isAppOneNode] at hp
      | LamOneOne a b =>
        exfalso
        simp [IsPreNorm, countNodes, isPostNormNode, isLamOneNode, isAppOneNode,
          isLamOneOneNode] at hp
      | AppOneCont a b k =>
        exfalso
        simp [IsPreNorm, countNodes, isPostNormNode, isLamOneNode, isAppOneNode,
          isLamOneOneNode, isAppOneContNode] at hp
      | LamOneOneCont a k b =>
        exfalso
        simp [IsPreNorm, countNodes, isPostNormNode, isLamOneNode, isAppOneNode,
          isLamOneOneNode, isAppOneContNode, isLamOneOneContNode] at hp
    · intro l hl hp
      cases l with
      | nil => exact ⟨[], rfl, rfl⟩
      | cons e r =>
        have hse : sizeOf e ≤ N := by simp at hl; omega
        have hsr : sizeOf r ≤ N := by simp at hl; omega
        have hpe : IsPreNorm e := by
          simp [IsPreNorm, IsPreNormList, countNodesList] at hp ⊢
          omega
        have hpr : IsPreNormList r := by
          simp [IsPreNorm, IsPreNormList, countNodesList] at hp ⊢
          omega
        obtain ⟨e2, ha, hb⟩ := ih.1 e hse hpe
        obtain ⟨r2, hc, hd⟩ := ih.2 r hsr hpr
        exact ⟨e2 :: r2, by simp [rename_builtins_list, ha, hc],
          by simp [rename_builtins_list, hb, hd]⟩

theorem extract_lambdas_eq (e : LExEnv) :
    extract_lambdas e = (replace_lams e, collect_lams e) := by
  induction e with
  | Lam arg expr env id ih =>
    simp [extract_lambdas, replace_lams, collect_lams, ih]
  | LamCont arg cont expr env id ih =>
    simp [extract_lambdas, replace_lams, collect_lams, ih]
  | App1 c r env ihc ihr =>
    simp [extract_lambdas, replace_lams, collect_lams, ihc, ihr]
  | App2 f r c env ihf ihr ihc =>
    simp [extract_lambdas, replace_lams, collect_lams, ihf, ihr, ihc]
  | Var n g env => rfl
  | LamRef id => rfl


theorem range'_app (s m n : Nat) :
    List.range' s m ++ List.range' (s + m) n = List.range' s (m + n) := by
  rw [Nat.add_comm m n]
  have h := List.range'_append s m n 1
  rw [one_mul] at h
  exact h

theorem range'_cons (s n : Nat) :
    s :: List.range' (s + 1) n = List.range' s (n + 1) := by
  simp [List.range'_succ]

theorem resolve_ids_aux (N : Nat) : ∀ e : LExpr, sizeOf e ≤ N →
    ∀ (env : Env) (ctx : EnvCtx) (r : LExEnv) (ctx2 : EnvCtx),
      resolve_env_internal e env ctx = some (r, ctx2) →
      idsOfEnv r = List.range' ctx.lam_map.length (numLams e)
        ∧ ctx2.lam_map.length = ctx.lam_map.length + numLams e := by
  induction N with
  | zero =>
    intro e he
    cases e <;> simp at he
  | succ N ih =>
    intro e he env ctx r ctx2 h
    cases e with
    | Var v =>
      simp only [resolve_env_internal, Option.some.injEq, Prod.mk.injEq] at h
      obtain ⟨h1, h2⟩ := h
      subst h1; subst h2
      simp [idsOfEnv, numLams, countNodes, isCpsLamNode, isLamOneOneNode, isLamOneOneContNode]
    | AppOne f a =>
      have hsf : sizeOf f ≤ N := by simp at he; omega
      have hsa : sizeOf a ≤ N := by simp at he; omega
      simp only [resolve_env_internal] at h
      split at h
      · simp at h
      · rename_i v1 rf ctx1 heq1
        split at h
        · simp at h
        · rename_i v2 ra ctxb heq2
          simp only [Option.some.injEq, Prod.mk.injEq] at h
          obtain ⟨h3, h4⟩ := h
          subst h3; subst h4
          obtain ⟨g1, g2⟩ := ih f hsf env ctx rf ctx1 heq1
          obtain ⟨g3, g4⟩ := ih a hsa env ctx1 ra ctxb heq2
          constructor
          · simp only [idsOfEnv, g1, g3, g2]
            rw [range'_app]
            simp [numLams, countNodes, isCpsLamNode, isLamOneOneNode, isLamOneOneContNode]
          · simp [numLams, countNodes, isCpsLamNode, isLamOneOneNode, isLamOneOneContNode]
              at g2 g4 ⊢
            omega
    | AppOneCont f a k =>
      have hsf : sizeOf f ≤ N := by simp at he; omega
      have hsa : sizeOf a ≤ N := by simp at he; omega
      have hsk : sizeOf k ≤ N := by simp at he; omega
      simp only [resolve_env_internal] at h
      split at h
      · simp at h
      · rename_i v1 rf ctx1 heq1
        split at h
        · simp at h
        · rename_i v2 ra ctxb heq2
          split at h
          · simp at h
          · rename_i v3 rk ctxc heq3
            simp only [Option.some.injEq, Prod.mk.injEq] at h
            obtain ⟨h4, h5⟩ := h
            subst h4; subst h5
            obtain ⟨g1, g2⟩ := ih f hsf env ctx rf ctx1 heq1
            obtain ⟨g3, g4⟩ := ih a hsa env ctx1 ra ctxb heq2
            obtain ⟨g5, g6⟩ := ih k hsk env ctxb rk ctxc heq3
            constructor
            · have hn : numLams (LExpr.AppOneCont f a k)
                  = numLams f + (numLams a + numLams k) := by
                simp [numLams, countNodes, isCpsLamNode, isLamOneOneNode,
                  isLamOneOneContNode]
                omega
              simp only [idsOfEnv, g1, g3, g5, g2, g4, List.append_assoc]
              rw [range'_app, range'_app, hn]
            · simp [numLams, countNodes, isCpsLamNode, isLamOneOneNode, isLamOneOneContNode]
                at g2 g4 g6 ⊢
              omega
    | LamOneOne arg body =>
      have hsb : sizeOf body ≤ N := by simp at he; omega
      simp only [resolve_env_internal, EnvCtx.get_var_index, EnvCtx.add_lam_map] at h
      split at h
      · simp at h
      · rename_i v1 rb ctxb heq1
        simp only [Option.some.injEq, Prod.mk.injEq] at h
        obtain ⟨h3, h4⟩ := h
        subst h3; subst h4
        obtain ⟨g1, g2⟩ := ih body hsb _ _ rb ctxb heq1
        simp only [List.length_append, List.length_singleton] at g1 g2
        constructor
        · have hn : numLams (LExpr.LamOneOne arg body) = numLams body + 1 := by
            simp [numLams, countNodes, isCpsLamNode, isLamOneOneNode, isLamOneOneContNode]
            omega
          simp only [idsOfEnv, g1]
          rw [range'_cons, hn]
        · simp [numLams, countNodes, isCpsLamNode, isLamOneOneNode, isLamOneOneContNode]
            at g2 ⊢
          omega
    | LamOneOneCont arg cont body =>
      have hsb : sizeOf body ≤ N := by simp at he; omega
      simp only [resolve_env_internal, EnvCtx.get_var_index, EnvCtx.add_lam_map] at h
      split at h
      · simp at h
      · rename_i v1 rb ctxb heq1
        simp only [Option.some.injEq, Prod.mk.injEq] at h
        obtain ⟨h3, h4⟩ := h
        subst h3; subst h4
        obtain ⟨g1, g2⟩ := ih body hsb _ _ rb ctxb heq1
        simp only [List.length_append, List.length_singleton] at g1 g2
        constructor
        · have hn : numLams (LExpr.LamOneOneCont arg cont body) = numLams body + 1 := by
            simp [numLams, countNodes, isCpsLamNode, isLamOneOneNode, isLamOneOneContNode]
            omega
          simp only [idsOfEnv, g1]
          rw [range'_cons, hn]
        · simp [numLams, countNodes, isCpsLamNode, isLamOneOneNode, isLamOneOneContNode]
            at g2 ⊢
          omega
    | Lam args body => simp [resolve_env_internal] at h
    | App f ops => simp [resolve_env_internal] at h
    | LamOne a b => simp [resolve_env_internal] at h
    | Lit l => simp [resolve_env_internal] at h
    | BuiltinIdent nm t => simp [resolve_env_internal] at h

theorem mapKeys_nil {α : Type} : mapKeys ([] : List (Nat × α)) = [] := rfl

theorem mapKeys_cons {α : Type} (p : Nat × α) (m : List (Nat × α)) :
    mapKeys (p :: m) = p.1 :: mapKeys m := rfl

theorem mapKeys_append {α : Type} (m1 m2 : List (Nat × α)) :
    mapKeys (m1 ++ m2) = mapKeys m1 ++ mapKeys m2 := by
  simp [mapKeys]

theorem mapKeys_reverse {α : Type} (m : List (Nat × α)) :
    mapKeys m.reverse = (mapKeys m).reverse := by
  simp [mapKeys]

theorem mem_mapKeys {α : Type} (x : Nat) (m : List (Nat × α)) :
    x ∈ mapKeys m ↔ ∃ b, (x, b) ∈ m := by
  simp [mapKeys]

theorem hinsert_not_mem {α : Type} (k : Nat) (v : α) (m : List (Nat × α))
    (h : k ∉ mapKeys m) : hinsert k v m = (k, v) :: m := by
  unfold hinsert
  congr 1
  apply List.filter_eq_self.mpr
  intro p hp
  simp only [bne_iff_ne, ne_eq, decide_eq_true_eq]
  intro hq
  exact h ((mem_mapKeys k m).mpr ⟨p.2, by rw [← hq]; exact hp⟩)

theorem hextend_disjoint {α : Type} :
    ∀ (m2 m1 : List (Nat × α)),
      (∀ x ∈ mapKeys m2, x ∉ mapKeys m1) → (mapKeys m2).Nodup →
      hextend m1 m2 = m2.reverse ++ m1 := by
  intro m2
  induction m2 with
  | nil => intro m1 _ _; rfl
  | cons kv t ih =>
    intro m1 hdisj hnd
    rw [mapKeys_cons] at hdisj hnd
    have hk : kv.1 ∉ mapKeys m1 := hdisj kv.1 (List.mem_cons_self _ _)
    have step : hextend m1 (kv :: t) = hextend (hinsert kv.1 kv.2 m1) t := rfl
    rw [step, hinsert_not_mem kv.1 kv.2 m1 hk]
    have hnotin : kv.1 ∉ mapKeys t := (List.nodup_cons.mp hnd).1
    have hnd2 : (mapKeys t).Nodup := (List.nodup_cons.mp hnd).2
    have hdisj2 : ∀ x ∈ mapKeys t, x ∉ mapKeys ((kv.1, kv.2) :: m1) := by
      intro x hx hmem
      rw [mapKeys_cons] at hmem
      rcases List.mem_cons.mp hmem with hq | hq
      · rw [hq] at hx
        exact hnotin hx
      · exact hdisj x (List.mem_cons_of_mem _ hx) hq
    rw [ih ((kv.1, kv.2) :: m1) hdisj2 hnd2]
    simp

theorem keys_collect_perm : ∀ e : LExEnv, (idsOfEnv e).Nodup →
    (mapKeys (collect_lams e)).Perm (idsOfEnv e) := by
  intro e
  induction e with
  | Var n g env => intro _; exact List.Perm.refl _
  | LamRef id => intro _; exact List.Perm.refl _
  | Lam arg expr env id ih =>
    intro h
    simp only [idsOfEnv] at h ⊢
    have hnotin : id ∉ idsOfEnv expr := (List.nodup_cons.mp h).1
    have hperm := ih (List.nodup_cons.mp h).2
    have hid : id ∉ mapKeys (collect_lams expr) := fun hmem => hnotin (hperm.mem_iff.mp hmem)
    show (mapKeys (collect_lams (.Lam arg expr env id))).Perm (id :: idsOfEnv expr)
    rw [show collect_lams (.Lam arg expr env id)
        = hinsert id (.Lam arg (replace_lams expr) env id) (collect_lams expr) from rfl]
    rw [hinsert_not_mem _ _ _ hid, mapKeys_cons]
    exact hperm.cons id
  | LamCont arg cont expr env id ih =>
    intro h
    simp only [idsOfEnv] at h ⊢
    have hnotin : id ∉ idsOfEnv expr := (List.nodup_cons.mp h).1
    have hperm := ih (List.nodup_cons.mp h).2
    have hid : id ∉ mapKeys (collect_lams expr) := fun hmem => hnotin (hperm.mem_iff.mp hmem)
    show (mapKeys (collect_lams (.LamCont arg cont expr env id))).Perm (id :: idsOfEnv expr)
    rw [show collect_lams (.LamCont arg cont expr env id)
        = hinsert id (.LamCont arg cont (replace_lams expr) env id) (collect_lams expr) from rfl]
    rw [hinsert_not_mem _ _ _ hid, mapKeys_cons]
    exact hperm.cons id
  | App1 c r env ihc ihr =>
    intro h
    simp only [idsOfEnv] at h ⊢
    rw [List.nodup_append] at h
    obtain ⟨hc, hr, hdis⟩ := h
    have hpc := ihc hc
    have hpr := ihr hr
    have hdisj : ∀ x ∈ mapKeys (collect_lams r), x ∉ mapKeys (collect_lams c) := by
      intro x hx hmem
      exact hdis (hpc.mem_iff.mp hmem) (hpr.mem_iff.mp hx)
    have hnd2 : (mapKeys (collect_lams r)).Nodup := (hpr.nodup_iff).mpr hr
    rw [show collect_lams (.App1 c r env)
        = hextend (collect_lams c) (collect_lams r) from rfl]
    rw [hextend_disjoint _ _ hdisj hnd2, mapKeys_append, mapKeys_reverse]
    exact (((List.reverse_perm _).append (List.Perm.refl _)).trans
      (hpr.append hpc)).trans List.perm_append_comm
  | App2 f r c env ihf ihr ihc =>
    intro h
    simp only [idsOfEnv] at h ⊢
    rw [List.nodup_append] at h
    obtain ⟨hfr, hc, hdis1⟩ := h
    rw [List.nodup_append] at hfr
    obtain ⟨hf, hr, hdis2⟩ := hfr
    have hpf := ihf hf
    have hpr := ihr hr
    have hpc := ihc hc
    have hdisj1 : ∀ x ∈ mapKeys (collect_lams r), x ∉ mapKeys (collect_lams f) := by
      intro x hx hmem
      exact hdis2 (hpf.mem_iff.mp hmem) (hpr.mem_iff.mp hx)
    have hndr : (mapKeys (collect_lams r)).Nodup := (hpr.nodup_iff).mpr hr
    have hndc : (mapKeys (collect_lams c)).Nodup := (hpc.nodup_iff).mpr hc
    have hM : hextend (collect_lams f) (collect_lams r)
        = (collect_lams r).reverse ++ collect_lams f :=
      hextend_disjoint _ _ hdisj1 hndr
    have hdisj2 : ∀ x ∈ mapKeys (collect_lams c),
        x ∉ mapKeys ((collect_lams r).reverse ++ collect_lams f) := by
      intro x hx hmem
      rw [mapKeys_append, mapKeys_reverse] at hmem
      have hxc : x ∈ idsOfEnv c := hpc.mem_iff.mp hx
      rcases List.mem_append.mp hmem with hq | hq
      · have : x ∈ idsOfEnv r := hpr.mem_iff.mp (List.mem_reverse.mp hq)
        exact hdis1 (List.mem_append.mpr (Or.inr this)) hxc
      · have : x ∈ idsOfEnv f := hpf.mem_iff.mp hq
        exact hdis1 (List.mem_append.mpr (Or.inl this)) hxc
    rw [show collect_lams (.App2 f r c env)
        = hextend (hextend (collect_lams f) (collect_lams r)) (collect_lams c) from rfl]
    rw [hM, hextend_disjoint _ _ hdisj2 hndc]
    rw [mapKeys_append, mapKeys_reverse, mapKeys_append, mapKeys_reverse]
    have p1 := (List.reverse_perm (mapKeys (collect_lams c))).append
      ((List.reverse_perm (mapKeys (collect_lams r))).append
        (List.Perm.refl (mapKeys (collect_lams f))))
    have p2 := hpc.append (hpr.append hpf)
    have p3 : (idsOfEnv c ++ (idsOfEnv r ++ idsOfEnv f)).Perm
        ((idsOfEnv r ++ idsOfEnv f) ++ idsOfEnv c) := List.perm_append_comm
    have p4 : ((idsOfEnv r ++ idsOfEnv f) ++ idsOfEnv c).Perm
        ((idsOfEnv f ++ idsOfEnv r) ++ idsOfEnv c) :=
      List.Perm.append_right _ List.perm_append_comm
    exact ((p1.trans p2).trans p3).trans p4

theorem ids_length : ∀ e : LExEnv, (idsOfEnv e).length = numLamsEnv e := by
  intro e
  induction e with
  | Lam arg expr env id ih =>
    simp [idsOfEnv, numLamsEnv, countEnvNodes, isLamEnvNode] at ih ⊢
    omega
  | LamCont arg cont expr env id ih =>
    simp [idsOfEnv, numLamsEnv, countEnvNodes, isLamEnvNode] at ih ⊢
    omega
  | App1 c r env ihc ihr =>
    simp [idsOfEnv, numLamsEnv, countEnvNodes, isLamEnvNode] at ihc ihr ⊢
    omega
  | App2 f r c env ihf ihr ihc =>
    simp [idsOfEnv, numLamsEnv, countEnvNodes, isLamEnvNode] at ihf ihr ihc ⊢
    omega
  | Var n g env => rfl
  | LamRef id => rfl

theorem mem_hinsert {α : Type} (p : Nat × α) (k : Nat) (v : α) (m : List (Nat × α))
    (h : p ∈ hinsert k v m) : p = (k, v) ∨ p ∈ m := by
  unfold hinsert at h
  rcases List.mem_cons.mp h with hq | hq
  · exact Or.inl hq
  · exact Or.inr (List.mem_of_mem_filter hq)

theorem mem_hextend {α : Type} :
    ∀ (m2 m1 : List (Nat × α)) (p : Nat × α), p ∈ hextend m1 m2 → p ∈ m1 ∨ p ∈ m2 := by
  intro m2
  induction m2 with
  | nil => intro m1 p h; exact Or.inl h
  | cons kv t ih =>
    intro m1 p h
    have step : hextend m1 (kv :: t) = hextend (hinsert kv.1 kv.2 m1) t := rfl
    rw [step] at h
    rcases ih _ p h with hq | hq
    · rcases mem_hinsert p kv.1 kv.2 m1 hq with hr | hr
      · right
        rw [hr]
        exact List.mem_cons_self _ _
      · exact Or.inl hr
    · exact Or.inr (List.mem_cons_of_mem _ hq)

theorem noLams_replace : ∀ e : LExEnv, countEnvNodes isLamEnvNode (replace_lams e) = 0 := by
  intro e
  induction e with
  | Lam arg expr env id ih => simp [replace_lams, countEnvNodes, isLamEnvNode]
  | LamCont arg cont expr env id ih => simp [replace_lams, countEnvNodes, isLamEnvNode]
  | App1 c r env ihc ihr => simp [replace_lams, countEnvNodes, isLamEnvNode, ihc, ihr]
  | App2 f r c env ihf ihr ihc =>
    simp [replace_lams, countEnvNodes, isLamEnvNode, ihf, ihr, ihc]
  | Var n g env => rfl
  | LamRef id => rfl

theorem collect_stored : ∀ e : LExEnv, ∀ p ∈ collect_lams e, storedLamFlat p.2 = true := by
  intro e
  induction e with
  | Lam arg expr env id ih =>
    intro p hp
    rcases mem_hinsert p id (.Lam arg (replace_lams expr) env id) (collect_lams expr) hp
      with hq | hq
    · rw [hq]
      simp [storedLamFlat, noLams_replace]
    · exact ih p hq
  | LamCont arg cont expr env id ih =>
    intro p hp
    rcases mem_hinsert p id (.LamCont arg cont (replace_lams expr) env id) (collect_lams expr) hp
      with hq | hq
    · rw [hq]
      simp [storedLamFlat, noLams_replace]
    · exact ih p hq
  | App1 c r env ihc ihr =>
    intro p hp
    rcases mem_hextend (collect_lams r) (collect_lams c) p hp with hq | hq
    · exact ihc p hq
    · exact ihr p hq
  | App2 f r c env ihf ihr ihc =>
    intro p hp
    rcases mem_hextend (collect_lams c) (hextend (collect_lams f) (collect_lams r)) p hp
      with hq | hq
    · rcases mem_hextend (collect_lams r) (collect_lams f) p hq with hr | hr
      · exact ihf p hr
      · exact ihr p hr
    · exact ihc p hq
  | Var n g env => intro p hp; cases hp
  | LamRef id => intro p hp; cases hp

theorem range'_concat (s n : Nat) :
    List.range' s n ++ [s + n] = List.range' s (n + 1) := by
  have h := range'_app s n 1
  simpa using h

namespace FlatLift

theorem lift_ids_aux : ∀ (f : FExpr) (ctx : LiftingCtx),
    (∀ x ∈ mapKeys ctx.lambdas, x < ctx.id_counter) →
    (lift_lambdas_internal f ctx).2.id_counter = ctx.id_counter + numLamsF f
      ∧ (mapKeys (lift_lambdas_internal f ctx).2.lambdas).Perm
          (mapKeys ctx.lambdas ++ List.range' ctx.id_counter (numLamsF f))
      ∧ ∀ x ∈ mapKeys (lift_lambdas_internal f ctx).2.lambdas,
          x < (lift_lambdas_internal f ctx).2.id_counter := by
  intro f
  induction f with
  | LamOne param body ih =>
    intro ctx hb
    obtain ⟨h1, h2, h3⟩ := ih ctx hb
    have hfresh : (lift_lambdas_internal body ctx).2.id_counter
        ∉ mapKeys (lift_lambdas_internal body ctx).2.lambdas := by
      intro hmem
      exact absurd (h3 _ hmem) (by omega)
    refine ⟨?_, ?_, ?_⟩
    · simp only [lift_lambdas_internal, LiftingCtx.get, LiftingCtx.add, numLamsF]
      omega
    · simp only [lift_lambdas_internal, LiftingCtx.get, LiftingCtx.add, numLamsF]
      rw [hinsert_not_mem _ _ _ hfresh, mapKeys_cons]
      have p1 : ((lift_lambdas_internal body ctx).2.id_counter
            :: mapKeys (lift_lambdas_internal body ctx).2.lambdas).Perm
          (mapKeys (lift_lambdas_internal body ctx).2.lambdas
            ++ [(lift_lambdas_internal body ctx).2.id_counter]) :=
        (List.perm_append_singleton _ _).symm
      refine p1.trans ?_
      have p2 := h2.append_right [(lift_lambdas_internal body ctx).2.id_counter]
      refine p2.trans ?_
      rw [List.append_assoc, h1, range'_concat]
    · intro x hx
      simp only [lift_lambdas_internal, LiftingCtx.get, LiftingCtx.add] at hx ⊢
      rw [hinsert_not_mem _ _ _ hfresh, mapKeys_cons] at hx
      rcases List.mem_cons.mp hx with hq | hq
      · omega
      · have := h3 _ hq
        omega
  | LamTwo param0 param1 body ih =>
    intro ctx hb
    obtain ⟨h1, h2, h3⟩ := ih ctx hb
    have hfresh : (lift_lambdas_internal body ctx).2.id_counter
        ∉ mapKeys (lift_lambdas_internal body ctx).2.lambdas := by
      intro hmem
      exact absurd (h3 _ hmem) (by omega)
    refine ⟨?_, ?_, ?_⟩
    · simp only [lift_lambdas_internal, LiftingCtx.get, LiftingCtx.add, numLamsF]
      omega
    · simp only [lift_lambdas_internal, LiftingCtx.get, LiftingCtx.add, numLamsF]
      rw [hinsert_not_mem _ _ _ hfresh, mapKeys_cons]
      have p1 : ((lift_lambdas_internal body ctx).2.id_counter
            :: mapKeys (lift_lambdas_internal body ctx).2.lambdas).Perm
          (mapKeys (lift_lambdas_internal body ctx).2.lambdas
            ++ [(lift_lambdas_internal body ctx).2.id_counter]) :=
        (List.perm_append_singleton _ _).symm
      refine p1.trans ?_
      have p2 := h2.append_right [(lift_lambdas_internal body ctx).2.id_counter]
      refine p2.trans ?_
      rw [List.append_assoc, h1, range'_concat]
    · intro x hx
      simp only [lift_lambdas_internal, LiftingCtx.get, LiftingCtx.add] at hx ⊢
      rw [hinsert_not_mem _ _ _ hfresh, mapKeys_cons] at hx
      rcases List.mem_cons.mp hx with hq | hq
      · omega
      · have := h3 _ hq
        omega
  | Var v =>
    intro ctx hb
    refine ⟨by simp [lift_lambdas_internal, numLamsF], ?_, ?_⟩
    · simp [lift_lambdas_internal, numLamsF, List.range']
    · intro x hx
      exact hb x hx
  | Lit l =>
    intro ctx hb
    refine ⟨by simp [lift_lambdas_internal, numLamsF], ?_, ?_⟩
    · simp [lift_lambdas_internal, numLamsF, List.range']
    · intro x hx
      exact hb x hx
  | BuiltinIdent s =>
    intro ctx hb
    refine ⟨by simp [lift_lambdas_internal, numLamsF], ?_, ?_⟩
    · simp [lift_lambdas_internal, numLamsF, List.range']
    · intro x hx
      exact hb x hx
  | CallOne f p ihf ihp =>
    intro ctx hb
    obtain ⟨h1, h2, h3⟩ := ihf ctx hb
    obtain ⟨g1, g2, g3⟩ := ihp (lift_lambdas_internal f ctx).2 h3
    refine ⟨?_, ?_, ?_⟩
    · simp only [lift_lambdas_internal, numLamsF]
      omega
    · simp only [lift_lambdas_internal, numLamsF]
      refine g2.trans ?_
      rw [h1]
      have p2 := h2.append_right (List.range' (ctx.id_counter + numLamsF f) (numLamsF p))
      refine p2.trans ?_
      rw [List.append_assoc, range'_app]
    · intro x hx
      simp only [lift_lambdas_internal] at hx ⊢
      exact g3 x hx
  | CallTwo f p k ihf ihp ihk =>
    intro ctx hb
    obtain ⟨h1, h2, h3⟩ := ihf ctx hb
    obtain ⟨g1, g2, g3⟩ := ihp (lift_lambdas_internal f ctx).2 h3
    obtain ⟨j1, j2, j3⟩ := ihk (lift_lambdas_internal p (lift_lambdas_internal f ctx).2).2 g3
    refine ⟨?_, ?_, ?_⟩
    · simp only [lift_lambdas_internal, numLamsF]
      omega
    · simp only [lift_lambdas_internal, numLamsF]
      rw [h1] at g2
      rw [g1, h1] at j2
      refine j2.trans ?_
      refine (g2.append_right
        (List.range' (ctx.id_counter + numLamsF f + numLamsF p) (numLamsF k))).trans ?_
      refine ((h2.append_right
        (List.range' (ctx.id_counter + numLamsF f) (numLamsF p))).append_right
        (List.range' (ctx.id_counter + numLamsF f + numLamsF p) (numLamsF k))).trans ?_
      rw [List.append_assoc, List.append_assoc, range'_app, range'_app,
        ← Nat.add_assoc]
    · intro x hx
      simp only [lift_lambdas_internal] at hx ⊢
      exact j3 x hx

theorem lift_lambdas_ids (f : FExpr) :
    (mapKeys (FExpr.lift_lambdas f).2).Perm (List.range (numLamsF f)) := by
  have h := lift_ids_aux f ⟨0, []⟩ (by intro x hx; cases hx)
  have h2 := h.2.1
  simp only [FExpr.lift_lambdas]
  refine h2.trans ?_
  rw [List.range_eq_range']
  exact List.Perm.refl _

end FlatLift

/-- C1: the claim states that after environment resolution `global` is true
iff the name is NOT bound in the threaded `Env`.  The source computes
`global: env.get(&name).is_some()` (`codegen.rs` line 47), the exact
inverse.  This theorem evaluates the code at the failing inputs: the
unbound top-level variable `x` resolves with `global = false` although
`env.get "x" = none`, and the bound occurrence of `y` under a lambda
resolves with `global = true` although `env.get "y" = some 0`. -/
theorem resolve_env_inverts_global_flag :
    resolve_env (.Var "x") = some (.Var "x" false Env.empty, ⟨0, []⟩)
      ∧ Env.empty.get "x" = none
      ∧ resolve_env (.LamOneOne "y" (.Var "y"))
          = some (.Lam "y" (.Var "y" true ⟨[("y", 0)]⟩) ⟨[("y", 0)]⟩ 0, ⟨1, [⟨[("y", 0)]⟩]⟩)
      ∧ (Env.mk [("y", 0)]).get "y" = some 0 :=
  ⟨rfl, rfl, rfl, rfl⟩

/-- C2 counterexample: the claim states that CPS conversion's output
contains no `AppOne` and no bare `LamOneOne` node.  On the direct-style
input `x` with continuation `k` the output is the administrative
application `AppOne(k, x)`, and on `(f x)` the output contains two bare
administrative `LamOneOne` continuation lambdas — so the claim as stated
is false. -/
theorem cps_output_contains_appone_cex :
    cps_transform_cont (.Var "x") (.Var "k") 0
        = some (.AppOne (.Var "k") (.Var "x"), 0)
      ∧ countNodes isAppOneNode (.AppOne (.Var "k") (.Var "x")) = 1
      ∧ cps_transform_cont (.AppOne (.Var "f") (.Var "x")) (.Var "k") 0
          = some (.AppOne
              (.LamOneOne "$anon_var_rator_var_0"
                (.AppOne
                  (.LamOneOne "$anon_var_rand_var_1"
                    (.AppOneCont (.Var "$anon_var_rator_var_0")
                      (.Var "$anon_var_rand_var_1") (.Var "k")))
                  (.Var "x")))
              (.Var "f"), 2)
      ∧ countNodes isLamOneOneNode
          (.AppOne
            (.LamOneOne "$anon_var_rator_var_0"
              (.AppOne
                (.LamOneOne "$anon_var_rand_var_1"
                  (.AppOneCont (.Var "$anon_var_rator_var_0")
                    (.Var "$anon_var_rand_var_1") (.Var "k")))
                (.Var "x")))
            (.Var "f")) = 2 := by
  refine ⟨?_, rfl, ?_, rfl⟩
  · simp [cps_transform_cont, cps_transform]
  · simp [cps_transform_cont, cps_transform]
    decide

/-- C2 (amended): for every direct-style unary input `e` and continuation
`k` free of raw n-ary nodes, `cps_transform_cont` succeeds and its output
contains no raw `Lam`/`App`/`LamOne`; every direct-style application of the
input is converted — the output's `AppOneCont` count equals the input's
`AppOne` count plus the continuation's, and the output's `LamOneOneCont`
count equals the input's `LamOneOne` count plus the continuation's.
Administrative `AppOne` (continuation invocations) and bare `LamOneOne`
(continuation receivers) do remain in the output, so only this amended
post-condition holds. -/
theorem cps_transform_cont_structure_thm (e k : LExpr) (n : Nat) (e2 : LExpr) (n2 : Nat)
    (hd : IsDirect e) (hk : NoRawNodes k)
    (h : cps_transform_cont e k n = some (e2, n2)) :
    NoRawNodes e2
      ∧ countNodes isAppOneContNode e2
          = countNodes isAppOneNode e + countNodes isAppOneContNode k
      ∧ countNodes isLamOneOneContNode e2
          = countNodes isLamOneOneNode e + countNodes isLamOneOneContNode k := by
  obtain ⟨e3, n3, h3, hp⟩ := (cps_aux (sizeOf e) e le_rfl).1 k n hd hk
  rw [h] at h3
  simp only [Option.some.injEq, Prod.mk.injEq] at h3
  obtain ⟨rfl, rfl⟩ := h3
  exact hp

/-- C2 witness: the amended theorem applied at the direct-style input
`(f x)` with continuation `k`. -/
theorem cps_transform_cont_structure_witness :
    IsDirect (.AppOne (.Var "f") (.Var "x"))
      ∧ NoRawNodes (.Var "k")
      ∧ (NoRawNodes (.AppOne
            (.LamOneOne "$anon_var_rator_var_0"
              (.AppOne
                (.LamOneOne "$anon_var_rand_var_1"
                  (.AppOneCont (.Var "$anon_var_rator_var_0")
                    (.Var "$anon_var_rand_var_1") (.Var "k")))
                (.Var "x")))
            (.Var "f"))
        ∧ countNodes isAppOneContNode (.AppOne
            (.LamOneOne "$anon_var_rator_var_0"
              (.AppOne
                (.LamOneOne "$anon_var_rand_var_1"
                  (.AppOneCont (.Var "$anon_var_rator_var_0")
                    (.Var "$anon_var_rand_var_1") (.Var "k")))
                (.Var "x")))
            (.Var "f"))
            = countNodes isAppOneNode (.AppOne (.Var "f") (.Var "x"))
              + countNodes isAppOneContNode (.Var "k")
        ∧ countNodes isLamOneOneContNode (.AppOne
            (.LamOneOne "$anon_var_rator_var_0"
              (.AppOne
                (.LamOneOne "$anon_var_rand_var_1"
                  (.AppOneCont (.Var "$anon_var_rator_var_0")
                    (.Var "$anon_var_rand_var_1") (.Var "k")))
                (.Var "x")))
            (.Var "f"))
            = countNodes isLamOneOneNode (.AppOne (.Var "f") (.Var "x"))
              + countNodes isLamOneOneContNode (.Var "k")) :=
  ⟨⟨rfl, rfl, rfl⟩, rfl,
    cps_transform_cont_structure_thm (.AppOne (.Var "f") (.Var "x")) (.Var "k") 0
      (.AppOne
        (.LamOneOne "$anon_var_rator_var_0"
          (.AppOne
            (.LamOneOne "$anon_var_rand_var_1"
              (.AppOneCont (.Var "$anon_var_rator_var_0")
                (.Var "$anon_var_rand_var_1") (.Var "k")))
            (.Var "x")))
        (.Var "f")) 2
      ⟨rfl, rfl, rfl⟩ rfl
      (by simp [cps_transform_cont, cps_transform]; decide)⟩

/-- C3 counterexample: the claim states `App(f, [])` is rewritten to
`AppOne(f, Var("void"))`.  The code applies to the void literal
(`void_obj() = Lit(Void)`, `transform.rs` lines 40-42, 181), not to a
variable named `void`: at `App(Var "f", [])` the operand is `Lit Void`,
which differs from `Var "void"`. -/
theorem expand_lam_app_zero_operand_cex :
    expand_lam_app (.App (.Var "f") []) 0 = some (.AppOne (.Var "f") (.Lit .Void), 0)
      ∧ (LExpr.AppOne (.Var "f") (.Lit .Void)) ≠ .AppOne (.Var "f") (.Var "void") :=
  ⟨rfl, by simp⟩

/-- C3 (amended): for every operator `f`, a zero-operand application
`App(f, [])` is rewritten to `AppOne(f2, Lit Void)` where `f2` is the
recursively normalized operator and the operand is the void literal
(`void_obj`), not a variable named `"void"`. -/
theorem expand_lam_app_zero_operand (f : LExpr) (c c2 : Nat) (f2 : LExpr)
    (h : expand_lam_app f c = some (f2, c2)) :
    expand_lam_app (.App f []) c = some (.AppOne f2 (.Lit .Void), c2) := by
  simp [expand_lam_app, expand_lam_app_list, void_obj, h]

/-- C3 witness: the amended theorem applied at the operator `Var "g"`. -/
theorem expand_lam_app_zero_operand_witness :
    expand_lam_app (.App (.Var "g") []) 0 = some (.AppOne (.Var "g") (.Lit .Void), 0) :=
  expand_lam_app_zero_operand (.Var "g") 0 0 (.Var "g") rfl

/-- C4: the claim states `LamOne(arg, [])` becomes `LamOneOne(arg, void_obj)`.
The code (`transform.rs` lines 219-231) computes the empty-body `inner` as
`LamOneOne(arg, void_obj())` and then wraps it again in
`LamOneOne(arg, ...)`, producing a double-wrapped
`LamOneOne(arg, LamOneOne(arg, Lit Void))` — a lambda whose body is a
lambda, not the void literal.  This theorem evaluates the code at the
failing input. -/
theorem expand_lam_body_empty_body_eval :
    expand_lam_body (.LamOne "x" []) 0
      = (.LamOneOne "x" (.LamOneOne "x" (.Lit .Void)), 0) := by
  simp [expand_lam_body, expand_lam_body_list, void_obj]

/-- C5: the claim states the emitter translates `Var { global: false, name }`
into a local environment lookup keyed by the slot id assigned at
resolution time.  The source's `gen_local_lookup` (`codegen.rs` lines
246-249) is a `TODO` stub that ignores the name and the slot id and emits
the C literal `NULL`.  This theorem evaluates the code at a local variable
whose slot id is 0. -/
theorem codegen_local_lookup_stub :
    codegen (.Var "x" false ⟨[("x", 0)]⟩) = some (.LitStr "NULL")
      ∧ gen_local_lookup "x" = .LitStr "NULL" :=
  ⟨rfl, rfl⟩

/-- C6: on every pre-normalization input tree the builtin resolver equals
the specification-side mapping: every `Var` whose name is one of the six
table keys becomes `BuiltinIdent(canonical, TwoArg)` with exactly the
mapping `+`→`object_int_obj_add`, `-`→`object_int_obj_sub`,
`*`→`object_int_obj_mul`, `/`→`object_int_obj_div`,
`to_string`→`to_string_func`, `println`→`println_func`, and every other
`Var` is unchanged (see `rename_builtins_spec`). -/
theorem rename_builtins_table (e : LExpr) (h : IsPreNorm e) :
    rename_builtins e = some (rename_builtins_spec e) :=
  (rename_spec_aux (sizeOf e)).1 e le_rfl h

/-- C6 witness: the theorem applied at `(+ x 1)`, whose head is rewritten
to `object_int_obj_add` and whose other variable is untouched. -/
theorem rename_builtins_table_witness :
    IsPreNorm (.App (.Var "+") [.Var "x", .Lit (.Int 1)])
      ∧ rename_builtins (.App (.Var "+") [.Var "x", .Lit (.Int 1)])
          = some (rename_builtins_spec (.App (.Var "+") [.Var "x", .Lit (.Int 1)]))
      ∧ rename_builtins_spec (.App (.Var "+") [.Var "x", .Lit (.Int 1)])
          = .App (.BuiltinIdent "object_int_obj_add" .TwoArg) [.Var "x", .Lit (.Int 1)] :=
  ⟨rfl, rename_builtins_table _ rfl, rfl⟩

/-- C7: after environment resolution the lambda ids of the result, read in
traversal order, are exactly `0, 1, ..., n-1` for `n` lambdas (so they are
unique and dense), the resolver's `lam_map` has one environment per lambda,
and the lifted-lambda table of `extract_lambdas` has exactly that id set;
the second-revision lifter (`flat_expr.rs`), which assigns ids itself from
its `LiftingCtx` counter, likewise produces the key set `{0, ..., n-1}`. -/
theorem lambda_ids_dense :
    (∀ (e : LExpr) (r : LExEnv) (ctx : EnvCtx),
      resolve_env e = some (r, ctx) →
      idsOfEnv r = List.range (numLams e)
        ∧ ctx.lam_map.length = numLams e
        ∧ (mapKeys (extract_lambdas r).2).Perm (List.range (numLams e)))
    ∧ ∀ f : FlatLift.FExpr,
        (mapKeys (FlatLift.FExpr.lift_lambdas f).2).Perm
          (List.range (FlatLift.numLamsF f)) := by
  constructor
  · intro e r ctx h
    obtain ⟨g1, g2⟩ := resolve_ids_aux (sizeOf e) e le_rfl Env.empty ⟨0, []⟩ r ctx h
    have hr : idsOfEnv r = List.range (numLams e) := by
      rw [g1, List.range_eq_range']
      rfl
    refine ⟨hr, by simpa using g2, ?_⟩
    rw [extract_lambdas_eq]
    have hnd : (idsOfEnv r).Nodup := by
      rw [hr]
      exact List.nodup_range _
    have hp := keys_collect_perm r hnd
    rw [hr] at hp
    exact hp
  · exact FlatLift.lift_lambdas_ids

/-- C7 witness: the theorem applied to the post-CPS input
`LamOneOneCont("x", "k", Var "x")`, which resolution maps to a single
lambda with id 0. -/
theorem lambda_ids_dense_witness :
    idsOfEnv (.LamCont "x" "k" (.Var "x" true ⟨[("k", 1), ("x", 0)]⟩)
        ⟨[("k", 1), ("x", 0)]⟩ 0)
      = List.range (numLams (.LamOneOneCont "x" "k" (.Var "x")))
    ∧ (⟨2, [⟨[("k", 1), ("x", 0)]⟩]⟩ : EnvCtx).lam_map.length
        = numLams (.LamOneOneCont "x" "k" (.Var "x"))
    ∧ (mapKeys (extract_lambdas (.LamCont "x" "k"
        (.Var "x" true ⟨[("k", 1), ("x", 0)]⟩) ⟨[("k", 1), ("x", 0)]⟩ 0)).2).Perm
        (List.range (numLams (.LamOneOneCont "x" "k" (.Var "x")))) :=
  lambda_ids_dense.1 (.LamOneOneCont "x" "k" (.Var "x"))
    (.LamCont "x" "k" (.Var "x" true ⟨[("k", 1), ("x", 0)]⟩) ⟨[("k", 1), ("x", 0)]⟩ 0)
    ⟨2, [⟨[("k", 1), ("x", 0)]⟩]⟩ rfl

/-- C8 counterexample: the claim quantifies over every environment-annotated
input tree.  On a tree whose two lambdas share the id 0, the second insert
overwrites the first and the returned map has one entry for two lambdas, so
"exactly one entry per lambda" fails as stated. -/
theorem extract_lambdas_duplicate_id_cex :
    numLamsEnv (.App1 (.Lam "x" (.Var "x" false Env.empty) Env.empty 0)
      (.Lam "y" (.Var "y" false Env.empty) Env.empty 0) Env.empty) = 2
    ∧ (extract_lambdas (.App1 (.Lam "x" (.Var "x" false Env.empty) Env.empty 0)
      (.Lam "y" (.Var "y" false Env.empty) Env.empty 0) Env.empty)).2.length = 1 :=
  ⟨rfl, rfl⟩

/-- C8 (amended): for every environment-annotated input tree whose lambda
ids are pairwise distinct (as environment resolution guarantees), the
lifted main expression contains no `Lam`/`LamCont`, the map has exactly one
entry per lambda of the input with exactly the lambda ids as keys, and
every stored value is a lambda whose body contains no nested `Lam`/`LamCont`
(nested lambdas appear only as `LamRef`). -/
theorem extract_lambdas_post (e : LExEnv) (h : (idsOfEnv e).Nodup) :
    countEnvNodes isLamEnvNode (extract_lambdas e).1 = 0
      ∧ (extract_lambdas e).2.length = numLamsEnv e
      ∧ (mapKeys (extract_lambdas e).2).Perm (idsOfEnv e)
      ∧ ∀ p ∈ (extract_lambdas e).2, storedLamFlat p.2 = true := by
  rw [extract_lambdas_eq]
  have hp := keys_collect_perm e h
  have hlen := hp.length_eq
  rw [ids_length] at hlen
  exact ⟨noLams_replace e, by simpa [mapKeys] using hlen, hp, collect_stored e⟩

/-- C8 witness: the amended theorem applied to a tree with one lambda of
id 0. -/
theorem extract_lambdas_post_witness :
    countEnvNodes isLamEnvNode
        (extract_lambdas (.Lam "x" (.Var "x" false Env.empty) Env.empty 0)).1 = 0
      ∧ (extract_lambdas (.Lam "x" (.Var "x" false Env.empty) Env.empty 0)).2.length
          = numLamsEnv (.Lam "x" (.Var "x" false Env.empty) Env.empty 0)
      ∧ (mapKeys (extract_lambdas (.Lam "x" (.Var "x" false Env.empty) Env.empty 0)).2).Perm
          (idsOfEnv (.Lam "x" (.Var "x" false Env.empty) Env.empty 0))
      ∧ ∀ p ∈ (extract_lambdas (.Lam "x" (.Var "x" false Env.empty) Env.empty 0)).2,
          storedLamFlat p.2 = true :=
  extract_lambdas_post (.Lam "x" (.Var "x" false Env.empty) Env.empty 0) (by decide)

/-- C9: the builtin resolver is idempotent on every pre-normalization input
tree: running it on its own output returns that output unchanged. -/
theorem rename_builtins_idempotent (e : LExpr) (h : IsPreNorm e) :
    (rename_builtins e).bind rename_builtins = rename_builtins e := by
  obtain ⟨e2, h1, h2⟩ := (rename_idem_aux (sizeOf e)).1 e le_rfl h
  rw [h1]
  exact h2

/-- C9 witness: the theorem applied at `(lambda (x) println x)`. -/
theorem rename_builtins_idempotent_witness :
    IsPreNorm (.Lam ["x"] [.Var "println", .Var "x"])
      ∧ (rename_builtins (.Lam ["x"] [.Var "println", .Var "x"])).bind rename_builtins
          = rename_builtins (.Lam ["x"] [.Var "println", .Var "x"]) :=
  ⟨rfl, rename_builtins_idempotent _ rfl⟩

/-- C10: lambda lifting changes nothing except lambda positions: the main
expression it returns is the input with each in-line lambda replaced by a
`LamRef` carrying that lambda's id, while every `App1`, `App2` and `Var`
node keeps its fields (including the `env` annotation) unchanged
(`replace_lams`); and the returned map stores, under each lambda's id, that
lambda with its `arg`, `cont`, `env` and `id` fields unchanged and only its
body lifted in the same way (`collect_lams`). -/
theorem extract_lambdas_frame (e : LExEnv) :
    extract_lambdas e = (replace_lams e, collect_lams e) :=
  extract_lambdas_eq e
